import Mathlib

/-!
Verification of the msk encrypted-vault engine against its specification.

The development shallowly embeds the Go source of the repository:
  * `internal/format/format.go`      — the plaintext-record and envelope codec;
  * `internal/encryption/key.go`     — Argon2id key derivation (parameter plumbing);
  * `internal/encryption/encryption.go` — `ArgonCrypt.Encrypt` / `ArgonCrypt.Decrypt`,
    `ConfigMK`, `DestroyMK`;
  * `internal/storage/file/store.go` — `Store.SaveFile` (atomic save) under an
    explicit fault model;
  * `internal/storage/store.go`      — `Store.GetFiles` (listing);
  * `internal/app/service.go`        — `Service.AddSecret` (thin composition).

Byte strings are modelled as `List Nat` (Go `[]byte`; every byte produced by the
program is `< 256`, and no theorem below depends on an upper bound except where
noted).  External cryptographic primitives (`crypto/cipher`'s AES-GCM and
`golang.org/x/crypto/argon2`'s `IDKey`) are not code of this repository: they
enter the embedding as parameters.  Theorems about `Encrypt`/`Decrypt` assume of
the AEAD parameter exactly the standard AEAD contract (decryption inverts
encryption; a ciphertext accepted under a key/nonce is the encryption of its
plaintext under that key/nonce; single-byte substitution is rejected), which is
the contract the specification itself ascribes to AES-GCM.  A concrete model
`idealSeal`/`idealOpn` satisfying the contract is provided so that every theorem
can be evaluated on explicit inputs.
-/

/-- Go `[]byte`, as a list of naturals. -/
abbrev Bytes := List Nat

/-- The error values surfaced by the core (package-level `errors.New` values in
`format`, `encryption`, `storage` and `app`). -/
inductive GoErr where
  | corruptedFile
  | unsupportedFileVersion
  | invalidSaltSize
  | invalidNonceSize
  | invalidSalt
  | invalidPass
  | decryption
  | loadMasterKey
  | aesKeySize
  | ctxCanceled
  | ioFault
  | secretExists
deriving DecidableEq

/-- `domain.Secret`: `Name string`, `Password []byte`, `CreatedAt time.Time`.
The name is its byte string; the timestamp is a natural (Go's zero `time.Time`
is `0`). -/
structure Secret where
  name : Bytes
  password : Bytes
  createdAt : Nat
deriving DecidableEq

instance {ε α : Type} [DecidableEq ε] [DecidableEq α] :
    DecidableEq (Except ε α) := fun a b =>
  match a, b with
  | .ok x, .ok y =>
    if h : x = y then .isTrue (by rw [h]) else .isFalse (by simp [h])
  | .error x, .error y =>
    if h : x = y then .isTrue (by rw [h]) else .isFalse (by simp [h])
  | .ok _, .error _ => .isFalse (by simp)
  | .error _, .ok _ => .isFalse (by simp)

namespace Format

/-- `format.MSK_MAGIC_VALUE = "MSK"` as bytes. -/
def MSK_MAGIC : Bytes := [77, 83, 75]

def MSK_FILE_VERSION : Nat := 1
def MSK_MAGIC_SIZE : Nat := 3
def MSK_VERSION_SIZE : Nat := 1
def MSK_SALT_SIZE : Nat := 16
def MSK_NONCE_SIZE : Nat := 12
def MSK_HEADER_SIZE : Nat :=
  MSK_MAGIC_SIZE + MSK_VERSION_SIZE + MSK_SALT_SIZE + MSK_NONCE_SIZE
def MSK_NAME_LENGTH_SIZE : Nat := 2
def MSK_PASSWORD_LENGTH_SIZE : Nat := 2

/-- `binary.BigEndian.PutUint16` applied to `uint16(v)`: the Go conversion
truncates to 16 bits, then the two bytes are written big-endian. -/
def putUint16BE (v : Nat) : Bytes := [v % 65536 / 256, v % 256]

/-- `binary.BigEndian.Uint16` on two bytes (each `< 256` in the program). -/
def readUint16BE (a b : Nat) : Nat := a * 256 + b

/-- `format.MarshalSecret`: 2-byte big-endian name length, name bytes,
2-byte big-endian password length, password bytes.  `CreatedAt` is not
written. -/
def MarshalSecret (s : Secret) : Bytes :=
  putUint16BE s.name.length ++ s.name ++
    putUint16BE s.password.length ++ s.password

/-- `format.UnmarshalSecret` (signature of `format.go`, returning an error on a
truncated buffer).  The decoded `CreatedAt` is the zero value: the field is not
part of the encoding. -/
def UnmarshalSecret (data : Bytes) : Except GoErr Secret :=
  if data.length < MSK_NAME_LENGTH_SIZE then .error .corruptedFile
  else
    let nameLen := readUint16BE (data.headD 0) ((data.drop 1).headD 0)
    if MSK_NAME_LENGTH_SIZE + nameLen > data.length then .error .corruptedFile
    else
      let name := (data.drop MSK_NAME_LENGTH_SIZE).take nameLen
      let rest := (data.drop MSK_NAME_LENGTH_SIZE).drop nameLen
      if MSK_NAME_LENGTH_SIZE + nameLen + MSK_PASSWORD_LENGTH_SIZE > data.length
      then .error .corruptedFile
      else
        let passLen := readUint16BE (rest.headD 0) ((rest.drop 1).headD 0)
        if MSK_NAME_LENGTH_SIZE + nameLen + MSK_PASSWORD_LENGTH_SIZE + passLen
            > data.length
        then .error .corruptedFile
        else
          .ok { name := name
                password := (rest.drop MSK_PASSWORD_LENGTH_SIZE).take passLen
                createdAt := 0 }

/-- The on-disk envelope: `"MSK" | version 1 | salt | nonce | ciphertext`. -/
def envelope (salt nonce data : Bytes) : Bytes :=
  77 :: 83 :: 75 :: MSK_FILE_VERSION :: (salt ++ nonce ++ data)

/-- `format.MarshalFile`: validates the salt and nonce sizes, then lays out the
fixed header followed by the opaque ciphertext. -/
def MarshalFile (salt nonce data : Bytes) : Except GoErr Bytes :=
  if salt.length ≠ MSK_SALT_SIZE then .error .invalidSaltSize
  else if nonce.length ≠ MSK_NONCE_SIZE then .error .invalidNonceSize
  else .ok (envelope salt nonce data)

/-- `format.UnmarshalFile`: header-size check, magic check, a (redundant)
second size check, version check, then the three slices. -/
def UnmarshalFile (data : Bytes) : Except GoErr (Bytes × Bytes × Bytes) :=
  if data.length < MSK_HEADER_SIZE then .error .corruptedFile
  else if data.take MSK_MAGIC_SIZE ≠ MSK_MAGIC then .error .corruptedFile
  else if data.length ≤ MSK_MAGIC_SIZE then .error .corruptedFile
  else if (data.drop MSK_MAGIC_SIZE).headD 0 ≠ MSK_FILE_VERSION then
    .error .unsupportedFileVersion
  else
    let rest := data.drop (MSK_MAGIC_SIZE + MSK_VERSION_SIZE)
    .ok (rest.take MSK_SALT_SIZE,
         (rest.drop MSK_SALT_SIZE).take MSK_NONCE_SIZE,
         rest.drop (MSK_SALT_SIZE + MSK_NONCE_SIZE))

end Format

namespace Encryption

open Format

/-- `encryption.getArgonDeriveKey` (`internal/encryption/key.go`): validates the
salt size and that the master password is non-empty, then calls
`argon2.IDKey(password, salt, 6, 128*1024, 4, 32)`.  `argon2.IDKey` is the
external Argon2id primitive and enters as the parameter `idKey`
(password, salt, time, memoryKiB, threads, keyLen). -/
def getArgonDeriveKey (idKey : Bytes → Bytes → Nat → Nat → Nat → Nat → Bytes)
    (password salt : Bytes) : Except GoErr Bytes :=
  if salt.length ≠ MSK_SALT_SIZE then .error .invalidSalt
  else if password.length = 0 then .error .invalidPass
  else .ok (idKey password salt 6 (128 * 1024) 4 32)

/-- `aes.NewCipher` succeeds exactly on 16-, 24- or 32-byte keys. -/
def aesKeyLenOK (key : Bytes) : Bool :=
  key.length == 16 || key.length == 24 || key.length == 32

/-- The AEAD primitive (`cipher.NewGCM(block)`): `seal key nonce plaintext`
and `opn key nonce ciphertext` stand for `gcm.Seal(nil, nonce, pt, nil)` and
`gcm.Open(nil, nonce, ct, nil)` (no associated data). -/
structure AEAD where
  sealFn : Bytes → Bytes → Bytes → Bytes
  opnFn : Bytes → Bytes → Bytes → Option Bytes

/-- `encryption.ArgonCrypt`: the `memguard` enclave holding the master key;
`none` when no key has been configured (fresh `NewArgonCrypt`, or after
`DestroyMK`). -/
def ArgonCrypt := Option Bytes

/-- `ArgonCrypt.ConfigMK` stores (a private copy of) the given master key. -/
def ConfigMK (_ : ArgonCrypt) (mk : Bytes) : ArgonCrypt := some mk

/-- `ArgonCrypt.DestroyMK` drops the stored master key. -/
def DestroyMK (_ : ArgonCrypt) : ArgonCrypt := none

/-- `encryption.NewArgonCrypt`: no master key configured. -/
def NewArgonCrypt : ArgonCrypt := none

/-- `ArgonCrypt.Encrypt` (`internal/encryption/encryption.go:83-126`).  The
fresh random salt and nonce drawn from `crypto/rand` are passed in as the
entropy inputs `salt` and `nonce`; `cipher.NewGCM` never fails on an AES
block. -/
def Encrypt (A : AEAD) (idKey : Bytes → Bytes → Nat → Nat → Nat → Nat → Bytes)
    (a : ArgonCrypt) (salt nonce : Bytes) (secret : Secret) :
    Except GoErr Bytes :=
  match a with
  | none => .error .loadMasterKey
  | some mk =>
    match getArgonDeriveKey idKey mk salt with
    | .error e => .error e
    | .ok key =>
      if aesKeyLenOK key then
        MarshalFile salt nonce (A.sealFn key nonce (MarshalSecret secret))
      else .error .aesKeySize

/-- `ArgonCrypt.Decrypt` (`internal/encryption/encryption.go:40-81`): unwraps
the envelope, checks the master key is loaded, derives the key from the
envelope's salt, opens the ciphertext (failure is `ErrDecryption`), then
deserializes the plaintext record.  The plaintext-record decode follows
`format.go`'s fallible `UnmarshalSecret` signature. -/
def Decrypt (A : AEAD) (idKey : Bytes → Bytes → Nat → Nat → Nat → Nat → Bytes)
    (a : ArgonCrypt) (cipherData : Bytes) : Except GoErr Secret :=
  match UnmarshalFile cipherData with
  | .error e => .error e
  | .ok (salt, nonce, data) =>
    match a with
    | none => .error .loadMasterKey
    | some mk =>
      match getArgonDeriveKey idKey mk salt with
      | .error e => .error e
      | .ok key =>
        if aesKeyLenOK key then
          match A.opnFn key nonce data with
          | none => .error .decryption
          | some fileBytes => UnmarshalSecret fileBytes
        else .error .aesKeySize

/-! ### A concrete AEAD model

`idealSeal`/`idealOpn` realize the AEAD contract exactly: the ciphertext is the
plaintext written twice, followed by the key, the nonce, and the plaintext
length (a stand-in "authentication tag" binding key, nonce and content).
Decryption recovers the plaintext and rejects any ciphertext that is not the
encryption of its own content under the presented key and nonce. -/

def idealSeal (k n pt : Bytes) : Bytes :=
  (pt ++ pt ++ k ++ n) ++ [pt.length]

def idealOpn (k n ct : Bytes) : Option Bytes :=
  let plen := ct.getLast?.getD 0
  if ct.length = 2 * plen + k.length + n.length + 1 then
    if (ct.drop plen).take plen = ct.take plen ∧
        (ct.drop (2 * plen)).take k.length = k ∧
        (ct.drop (2 * plen + k.length)).take n.length = n then
      some (ct.take plen)
    else none
  else none

def idealAEAD : AEAD := { sealFn := idealSeal, opnFn := idealOpn }

/-- A concrete key-derivation model producing `keyLen` bytes. -/
def idealIdKey (password salt : Bytes) (_t _m _p keyLen : Nat) : Bytes :=
  (password ++ salt ++ List.replicate keyLen 0).take keyLen

end Encryption

namespace Storage

open Format

/-- The vault directory, as an association of file names (relative to the
directory) to file contents.  Lookup sees the first binding; update and
removal keep at most one binding per name. -/
abbrev FS := List (Bytes × Bytes)

def eraseKey (σ : FS) (p : Bytes) : FS := σ.filter (fun e => e.1 ≠ p)

def fsGet (σ : FS) (p : Bytes) : Option Bytes :=
  (σ.find? (fun e => e.1 = p)).map (·.2)

def fsSet (σ : FS) (p : Bytes) (v : Bytes) : FS := (p, v) :: eraseKey σ p

/-- `strings.ToLower`, on the ASCII fragment the vault names use. -/
def toLowerAscii (name : Bytes) : Bytes :=
  name.map (fun b => if 65 ≤ b ∧ b ≤ 90 then b + 32 else b)

/-- `".msk"` as bytes. -/
def mskExt : Bytes := [46, 109, 115, 107]

/-- `".tmp"` as bytes. -/
def tmpExt : Bytes := [46, 116, 109, 112]

/-- `Store.secretPath` (`internal/storage/file/paths_test.go` helper /
`internal/storage/paths.go`): the vault file for `name` is
`strings.ToLower(name) + ".msk"` inside the vault directory. -/
def savePath (name : Bytes) : Bytes := toLowerAscii name ++ mskExt

/-- Which steps of `Store.SaveFile` fail, injected in program order: the
entry cancellation check, `os.OpenFile`, the five `Write` calls (magic,
version, salt, nonce, data), `Sync`, `Close`, `os.Rename`. -/
structure SaveFaults where
  cancel : Bool
  openFail : Bool
  wMagic : Bool
  wVersion : Bool
  wSalt : Bool
  wNonce : Bool
  wData : Bool
  syncFail : Bool
  closeFail : Bool
  renameFail : Bool
deriving DecidableEq

/-- `Store.SaveFile` (`internal/storage/file/store.go:27-88`) over the
directory state `σ`: write the envelope pieces to `path + ".tmp"`, sync,
close, rename over `path`.  After a successful open, the deferred
`tmpFile.Close(); os.Remove(tmpPath)` runs on every exit, so each failure
exit removes the temporary file; the final directory sync ignores its error.
The salt and nonce come from the fixed-size arrays of
`domain.EncryptedSecret`. -/
def SaveFile (f : SaveFaults) (σ : FS) (salt nonce data : Bytes)
    (name : Bytes) : Except GoErr Unit × FS :=
  if f.cancel then (.error .ctxCanceled, σ)
  else
    let path := savePath name
    let tmpPath := path ++ tmpExt
    if f.openFail then (.error .ioFault, σ)
    else
      let σ₁ := fsSet σ tmpPath []
      if f.wMagic then (.error .ioFault, eraseKey σ₁ tmpPath)
      else
        let σ₂ := fsSet σ₁ tmpPath MSK_MAGIC
        if f.wVersion then (.error .ioFault, eraseKey σ₂ tmpPath)
        else
          let σ₃ := fsSet σ₂ tmpPath (MSK_MAGIC ++ [MSK_FILE_VERSION])
          if f.wSalt then (.error .ioFault, eraseKey σ₃ tmpPath)
          else
            let σ₄ := fsSet σ₃ tmpPath (MSK_MAGIC ++ [MSK_FILE_VERSION] ++ salt)
            if f.wNonce then (.error .ioFault, eraseKey σ₄ tmpPath)
            else
              let σ₅ := fsSet σ₄ tmpPath
                (MSK_MAGIC ++ [MSK_FILE_VERSION] ++ salt ++ nonce)
              if f.wData then (.error .ioFault, eraseKey σ₅ tmpPath)
              else
                let σ₆ := fsSet σ₅ tmpPath
                  (MSK_MAGIC ++ [MSK_FILE_VERSION] ++ salt ++ nonce ++ data)
                if f.syncFail then (.error .ioFault, eraseKey σ₆ tmpPath)
                else if f.closeFail then (.error .ioFault, eraseKey σ₆ tmpPath)
                else if f.renameFail then (.error .ioFault, eraseKey σ₆ tmpPath)
                else
                  let σ₇ := eraseKey (fsSet σ₆ path
                    (MSK_MAGIC ++ [MSK_FILE_VERSION] ++ salt ++ nonce ++ data))
                    tmpPath
                  (.ok (), σ₇)

/-- Go `strings.Contains`. -/
def hasSub (s sub : Bytes) : Bool :=
  match s with
  | [] => sub.isEmpty
  | _ :: t => sub.isPrefixOf s || hasSub t sub

/-- One entry of `os.ReadDir`: a name and whether it is a directory. -/
structure DirEntry where
  name : Bytes
  isDir : Bool
deriving DecidableEq

/-- `Store.GetFiles` (`internal/storage/store.go:121-148`): skip directory
entries, keep entries whose name contains `".msk"`, and return their file
names unchanged. -/
def GetFiles (entries : List DirEntry) : List Bytes :=
  (entries.filter (fun e => !e.isDir && hasSub e.name mskExt)).map (·.name)

/-- `Store.GetFiles` of the context-aware store
(`internal/storage/file/store.go:146-164`): the error check after
`os.ReadDir` is inverted (`if err == nil { return nil, nil }`), so a
successful directory read returns an empty listing; a missing directory
also yields an empty listing.  `readDir` is `some entries` on success and
`none` when the directory does not exist. -/
def fileStoreGetFiles (cancel : Bool) (readDir : Option (List DirEntry)) :
    Except GoErr (List Bytes) :=
  if cancel then .error .ctxCanceled
  else
    match readDir with
    | some _ => .ok []
    | none => .ok []

end Storage

namespace App

open Format Encryption Storage

/-- `Service.AddSecret` (`internal/app/service.go`): reject an existing name,
build the `Secret` with `CreatedAt = time.Now()`, encrypt, and hand the
envelope pieces to the repository.  `Encrypt` returns the marshalled envelope
`header ++ ciphertext`; `SaveFile` writes exactly those bytes, so the store is
given the envelope's salt, nonce and ciphertext. -/
def AddSecret (A : AEAD) (idKey : Bytes → Bytes → Nat → Nat → Nat → Nat → Bytes)
    (f : SaveFaults) (σ : FS) (a : ArgonCrypt) (salt nonce : Bytes)
    (name : Bytes) (password : Bytes) (now : Nat) :
    Except GoErr Unit × FS :=
  if (fsGet σ (savePath name)).isSome then (.error .secretExists, σ)
  else
    match Encrypt A idKey a salt nonce
        { name := name, password := password, createdAt := now } with
    | .error e => (.error e, σ)
    | .ok env =>
      match UnmarshalFile env with
      | .error e => (.error e, σ)
      | .ok (s, n, c) => SaveFile f σ s n c name

end App

/-! ### Codec lemmas -/

namespace Format

theorem marshalSecret_eq (s : Secret) :
    MarshalSecret s = (s.name.length % 65536 / 256) :: (s.name.length % 256) ::
      (s.name ++ (s.password.length % 65536 / 256) ::
        (s.password.length % 256) :: s.password) := by
  simp [MarshalSecret, putUint16BE]

theorem unmarshalSecret_marshalSecret (s : Secret)
    (hn : s.name.length ≤ 65535) (hp : s.password.length ≤ 65535) :
    UnmarshalSecret (MarshalSecret s) = .ok ⟨s.name, s.password, 0⟩ := by
  rw [marshalSecret_eq]
  have e1 : s.name.length % 65536 = s.name.length := Nat.mod_eq_of_lt (by omega)
  have e2 : s.password.length % 65536 = s.password.length :=
    Nat.mod_eq_of_lt (by omega)
  rw [e1, e2]
  simp only [UnmarshalSecret, MSK_NAME_LENGTH_SIZE, MSK_PASSWORD_LENGTH_SIZE,
    readUint16BE, List.headD_cons, List.length_cons, List.length_append,
    List.drop_succ_cons, List.drop_zero]
  have hr1 : s.name.length / 256 * 256 + s.name.length % 256
      = s.name.length := by omega
  have hr2 : s.password.length / 256 * 256 + s.password.length % 256
      = s.password.length := by omega
  rw [hr1]
  rw [if_neg (by omega), if_neg (by omega)]
  rw [List.take_left, List.drop_left]
  simp only [List.headD_cons, List.drop_succ_cons, List.drop_zero]
  rw [hr2]
  rw [if_neg (by omega), if_neg (by omega)]
  rw [List.take_length]

theorem length_envelope (salt nonce d : Bytes) :
    (envelope salt nonce d).length
      = 4 + salt.length + nonce.length + d.length := by
  simp [envelope]
  omega

theorem marshalFile_eq (salt nonce d : Bytes)
    (hs : salt.length = 16) (hn : nonce.length = 12) :
    MarshalFile salt nonce d = .ok (envelope salt nonce d) := by
  rw [MarshalFile, if_neg (by simp [hs, MSK_SALT_SIZE]),
    if_neg (by simp [hn, MSK_NONCE_SIZE])]

theorem unmarshalFile_envelope (salt nonce d : Bytes)
    (hs : salt.length = 16) (hn : nonce.length = 12) :
    UnmarshalFile (envelope salt nonce d) = .ok (salt, nonce, d) := by
  have hassoc : salt ++ nonce ++ d = salt ++ (nonce ++ d) :=
    List.append_assoc salt nonce d
  have htake : List.take 16 (salt ++ (nonce ++ d)) = salt := by
    rw [← hs]; exact List.take_left salt (nonce ++ d)
  have hdrop : List.drop 16 (salt ++ (nonce ++ d)) = nonce ++ d := by
    rw [← hs]; exact List.drop_left salt (nonce ++ d)
  have htaken : List.take 12 (nonce ++ d) = nonce := by
    rw [← hn]; exact List.take_left nonce d
  have hdrop28 : List.drop 28 (salt ++ (nonce ++ d)) = d := by
    have h1 := List.drop_drop 12 16 (salt ++ (nonce ++ d))
    rw [hdrop] at h1
    norm_num at h1
    rw [← hn] at h1
    rw [List.drop_left] at h1
    exact h1.symm
  simp only [UnmarshalFile, envelope, MSK_HEADER_SIZE, MSK_MAGIC_SIZE,
    MSK_VERSION_SIZE, MSK_SALT_SIZE, MSK_NONCE_SIZE, MSK_FILE_VERSION,
    MSK_MAGIC, List.length_cons, List.length_append]
  rw [if_neg (by omega)]
  rw [if_neg (by simp [List.take])]
  rw [if_neg (by omega)]
  simp only [List.drop_succ_cons, List.drop_zero, List.headD_cons]
  rw [if_neg (by omega)]
  norm_num
  exact ⟨htake, by rw [hdrop]; exact htaken, hdrop28⟩

theorem unmarshalFile_ok_inv {bs s n c : Bytes}
    (h : UnmarshalFile bs = .ok (s, n, c)) :
    bs = envelope s n c ∧ s.length = 16 ∧ n.length = 12 := by
  rw [UnmarshalFile] at h
  split_ifs at h with h1 h2 h3 h4
  simp only [MSK_MAGIC_SIZE, MSK_VERSION_SIZE, MSK_SALT_SIZE, MSK_NONCE_SIZE,
    MSK_HEADER_SIZE, MSK_FILE_VERSION, MSK_MAGIC, Except.ok.injEq,
    Prod.mk.injEq] at h h1 h2 h3 h4
  obtain ⟨hsv, hnv, hcv⟩ := h
  have hlen : 32 ≤ bs.length := by omega
  have h3lt : (3 : Nat) < bs.length := by omega
  have hdrop3 : bs.drop 3 = bs[3] :: bs.drop 4 := List.drop_eq_getElem_cons h3lt
  have hver : bs[3] = 1 := by
    have h4' := h4
    rw [hdrop3] at h4'
    simp only [List.headD_cons, ne_eq, not_not] at h4'
    exact h4'
  have hc : List.drop 32 bs = c := by
    have := hcv
    norm_num at this
    exact this
  have hd4 : bs.drop 4 = s ++ List.drop 16 (bs.drop 4) := by
    conv_lhs => rw [← List.take_append_drop 16 (bs.drop 4)]
    rw [hsv]
  have hd20 : List.drop 16 (bs.drop 4) = n ++ List.drop 32 bs := by
    conv_lhs => rw [← List.take_append_drop 12 (List.drop 16 (bs.drop 4))]
    rw [hnv]
    simp [List.drop_drop]
  have hslen : s.length = 16 := by
    rw [← hsv]
    simp only [List.length_take, List.length_drop]
    omega
  have hnlen : n.length = 12 := by
    rw [← hnv]
    simp only [List.length_take, List.length_drop]
    omega
  refine ⟨?_, hslen, hnlen⟩
  have hmag : bs.take 3 = [77, 83, 75] := not_ne_iff.mp h2
  have hd4c : bs.drop 4 = s ++ (n ++ c) := by
    rw [hd4, hd20, hc]
  calc bs = bs.take 3 ++ bs.drop 3 := (List.take_append_drop 3 bs).symm
    _ = [77, 83, 75] ++ (bs[3] :: bs.drop 4) := by rw [hmag, hdrop3]
    _ = [77, 83, 75] ++ (1 :: (s ++ (n ++ c))) := by rw [hver, hd4c]
    _ = envelope s n c := by
        simp [envelope, MSK_FILE_VERSION]

end Format

namespace Format

theorem headD_drop (l : Bytes) (n : Nat) (d : Nat) :
    (l.drop n).headD d = l.getD n d := by
  rw [List.headD_eq_head?, List.head?_drop, List.getD_eq_getElem?_getD]

theorem unmarshalFile_err_corrupted (data : Bytes)
    (h : data.length < 32 ∨ data.take 3 ≠ [77, 83, 75]) :
    UnmarshalFile data = .error .corruptedFile := by
  rw [UnmarshalFile]
  simp only [MSK_HEADER_SIZE, MSK_MAGIC_SIZE, MSK_VERSION_SIZE, MSK_SALT_SIZE,
    MSK_NONCE_SIZE, MSK_MAGIC, MSK_FILE_VERSION]
  by_cases hlen : data.length < 3 + 1 + 16 + 12
  · rw [if_pos hlen]
  · have hmag : data.take 3 ≠ [77, 83, 75] := by
      rcases h with h | h
      · omega
      · exact h
    rw [if_neg hlen, if_pos hmag]

theorem unmarshalFile_err_version (data : Bytes)
    (h1 : 32 ≤ data.length) (h2 : data.take 3 = [77, 83, 75])
    (h3 : data.getD 3 0 ≠ 1) :
    UnmarshalFile data = .error .unsupportedFileVersion := by
  rw [UnmarshalFile]
  simp only [MSK_HEADER_SIZE, MSK_MAGIC_SIZE, MSK_VERSION_SIZE, MSK_SALT_SIZE,
    MSK_NONCE_SIZE, MSK_MAGIC, MSK_FILE_VERSION]
  rw [if_neg (by omega), if_neg (by simp [h2]), if_neg (by omega),
    if_pos (by rw [headD_drop]; exact h3)]

theorem unmarshalFile_ok_of_wellFormed (data : Bytes)
    (h1 : 32 ≤ data.length) (h2 : data.take 3 = [77, 83, 75])
    (h3 : data.getD 3 0 = 1) :
    (UnmarshalFile data).isOk = true := by
  rw [UnmarshalFile]
  simp only [MSK_HEADER_SIZE, MSK_MAGIC_SIZE, MSK_VERSION_SIZE, MSK_SALT_SIZE,
    MSK_NONCE_SIZE, MSK_MAGIC, MSK_FILE_VERSION]
  rw [if_neg (by omega), if_neg (by simp [h2]), if_neg (by omega),
    if_neg (by rw [headD_drop]; simp only [ne_eq, not_not]; exact h3)]
  rfl

theorem unmarshalSecret_ok_shape {data : Bytes} {r : Secret}
    (h : UnmarshalSecret data = .ok r) :
    r.name = (data.drop 2).take
      (readUint16BE (data.headD 0) ((data.drop 1).headD 0)) ∧
    r.password =
      (((data.drop 2).drop
          (readUint16BE (data.headD 0) ((data.drop 1).headD 0))).drop 2).take
        (readUint16BE
          (((data.drop 2).drop
            (readUint16BE (data.headD 0) ((data.drop 1).headD 0))).headD 0)
          ((((data.drop 2).drop
            (readUint16BE (data.headD 0) ((data.drop 1).headD 0))).drop 1).headD 0)) ∧
    r.createdAt = 0 := by
  rw [UnmarshalSecret] at h
  simp only [MSK_NAME_LENGTH_SIZE, MSK_PASSWORD_LENGTH_SIZE] at h
  split_ifs at h
  injection h with h'
  rw [← h']
  exact ⟨rfl, rfl, rfl⟩

theorem marshalSecret_read_name (s : Secret) :
    readUint16BE ((MarshalSecret s).headD 0) (((MarshalSecret s).drop 1).headD 0)
      = s.name.length % 65536 := by
  rw [marshalSecret_eq]
  simp only [List.headD_cons, List.drop_succ_cons, List.drop_zero, readUint16BE]
  omega

theorem marshalSecret_drop_two (s : Secret) :
    (MarshalSecret s).drop 2
      = s.name ++ (s.password.length % 65536 / 256) ::
          (s.password.length % 256) :: s.password := by
  rw [marshalSecret_eq]
  simp only [List.drop_succ_cons, List.drop_zero]

theorem marshalSecret_after_name (s : Secret) :
    ((MarshalSecret s).drop 2).drop s.name.length
      = (s.password.length % 65536 / 256) ::
          (s.password.length % 256) :: s.password := by
  rw [marshalSecret_drop_two]
  exact List.drop_left s.name _

theorem marshalSecret_read_password (s : Secret) :
    readUint16BE (((MarshalSecret s).drop (2 + s.name.length)).headD 0)
        ((((MarshalSecret s).drop (2 + s.name.length)).drop 1).headD 0)
      = s.password.length % 65536 := by
  have hdd : (MarshalSecret s).drop (2 + s.name.length)
      = ((MarshalSecret s).drop 2).drop s.name.length := by
    rw [List.drop_drop]
  rw [hdd, marshalSecret_after_name]
  simp only [List.headD_cons, List.drop_succ_cons, List.drop_zero, readUint16BE]
  omega

theorem unmarshalSecret_marshalSecret_ne_of_long (s : Secret)
    (h : 65535 < s.name.length ∨ 65535 < s.password.length) :
    UnmarshalSecret (MarshalSecret s) ≠ .ok s := by
  intro hcontra
  obtain ⟨hname, hpass, -⟩ := unmarshalSecret_ok_shape hcontra
  rw [marshalSecret_read_name] at hname hpass
  by_cases hn : s.name.length ≤ 65535
  · have hp : 65535 < s.password.length := by
      rcases h with h | h
      · omega
      · exact h
    have e1 : s.name.length % 65536 = s.name.length := Nat.mod_eq_of_lt (by omega)
    rw [e1, marshalSecret_after_name] at hpass
    simp only [List.headD_cons, List.drop_succ_cons, List.drop_zero,
      readUint16BE] at hpass
    have hlen := congrArg List.length hpass
    simp only [List.length_take] at hlen
    omega
  · have hlen := congrArg List.length hname
    simp only [List.length_take] at hlen
    have : s.name.length % 65536 < s.name.length :=
      lt_of_le_of_lt (by omega) (by omega : 65535 < s.name.length)
    omega

end Format

/-! ### Claims about the codec -/

/-- C5: the envelope codec is an exact byte-for-byte round trip in both
directions: `UnmarshalFile` on a `MarshalFile` result returns exactly the
encoded salt, nonce and ciphertext, and re-encoding any triple accepted by
`UnmarshalFile` reproduces the original byte string. -/
theorem c5_envelope_roundtrip :
    (∀ salt nonce data bs : Bytes, salt.length = 16 → nonce.length = 12 →
        Format.MarshalFile salt nonce data = .ok bs →
        Format.UnmarshalFile bs = .ok (salt, nonce, data)) ∧
    (∀ bs salt nonce data : Bytes,
        Format.UnmarshalFile bs = .ok (salt, nonce, data) →
        Format.MarshalFile salt nonce data = .ok bs) := by
  constructor
  · intro salt nonce data bs hs hn hm
    rw [Format.marshalFile_eq salt nonce data hs hn] at hm
    injection hm with hm'
    rw [← hm']
    exact Format.unmarshalFile_envelope salt nonce data hs hn
  · intro bs salt nonce data h
    obtain ⟨hbs, hs, hn⟩ := Format.unmarshalFile_ok_inv h
    rw [Format.marshalFile_eq salt nonce data hs hn, hbs]

/-- Witness for C5 on a concrete salt, nonce and ciphertext. -/
theorem c5_envelope_roundtrip_witness :
    Format.UnmarshalFile
        (Format.envelope (List.replicate 16 0) (List.replicate 12 1) [5, 6])
      = .ok (List.replicate 16 0, List.replicate 12 1, [5, 6]) ∧
    Format.MarshalFile (List.replicate 16 0) (List.replicate 12 1) [5, 6]
      = .ok (Format.envelope (List.replicate 16 0) (List.replicate 12 1) [5, 6]) :=
  ⟨c5_envelope_roundtrip.1 _ _ _ _ (by decide) (by decide) (by decide),
   c5_envelope_roundtrip.2 _ _ _ _ (by decide)⟩

/-- C6: envelope decoding yields `CorruptedFile` exactly when the buffer is
shorter than the 32-byte header or the magic is not `"MSK"`,
`UnsupportedFileVersion` when the header is well-formed but the version byte
is not 1, and succeeds on every other input. -/
theorem c6_envelope_decode_cases (data : Bytes) :
    (data.length < 32 ∨ data.take 3 ≠ [77, 83, 75] →
      Format.UnmarshalFile data = .error .corruptedFile) ∧
    (32 ≤ data.length → data.take 3 = [77, 83, 75] → data.getD 3 0 ≠ 1 →
      Format.UnmarshalFile data = .error .unsupportedFileVersion) ∧
    (32 ≤ data.length → data.take 3 = [77, 83, 75] → data.getD 3 0 = 1 →
      (Format.UnmarshalFile data).isOk = true) :=
  ⟨Format.unmarshalFile_err_corrupted data,
   Format.unmarshalFile_err_version data,
   Format.unmarshalFile_ok_of_wellFormed data⟩

/-- Witness for C6: a short buffer, a wrong-magic buffer, a wrong-version
buffer and a well-formed buffer. -/
theorem c6_envelope_decode_cases_witness :
    Format.UnmarshalFile [77, 83, 75] = .error .corruptedFile ∧
    Format.UnmarshalFile (66 :: 65 :: 68 :: 1 :: List.replicate 28 0)
      = .error .corruptedFile ∧
    Format.UnmarshalFile (77 :: 83 :: 75 :: 9 :: List.replicate 28 0)
      = .error .unsupportedFileVersion ∧
    (Format.UnmarshalFile (77 :: 83 :: 75 :: 1 :: List.replicate 28 0)).isOk
      = true :=
  ⟨(c6_envelope_decode_cases [77, 83, 75]).1 (by left; decide),
   (c6_envelope_decode_cases _).1 (by right; decide),
   (c6_envelope_decode_cases _).2.1 (by decide) (by decide) (by decide),
   (c6_envelope_decode_cases _).2.2 (by decide) (by decide) (by decide)⟩

/-- Counterexample to C7 as stated: the plaintext-record codec does not
return a `Secret` equal to the original whenever `CreatedAt` is non-zero,
because `MarshalSecret` never writes the timestamp. -/
theorem c7_counterexample :
    Format.UnmarshalSecret (Format.MarshalSecret ⟨[97], [98], 7⟩)
      = .ok ⟨[97], [98], 0⟩ ∧
    Format.UnmarshalSecret (Format.MarshalSecret ⟨[97], [98], 7⟩)
      ≠ .ok ⟨[97], [98], 7⟩ := by decide

/-- C7 (amended): for every `Secret` whose name and password are at most
65535 bytes, decoding the encoded bytes returns a `Secret` with the same
`Name` and `Password`; the decoded `CreatedAt` is the zero timestamp, since
the length-prefixed encoding carries no timestamp field. -/
theorem c7_secret_roundtrip (s : Secret)
    (hn : s.name.length ≤ 65535) (hp : s.password.length ≤ 65535) :
    Format.UnmarshalSecret (Format.MarshalSecret s)
      = .ok ⟨s.name, s.password, 0⟩ :=
  Format.unmarshalSecret_marshalSecret s hn hp

/-- Witness for C7 on a concrete secret. -/
theorem c7_secret_roundtrip_witness :
    Format.UnmarshalSecret (Format.MarshalSecret ⟨[10], [20, 30], 4⟩)
      = .ok ⟨[10], [20, 30], 0⟩ :=
  c7_secret_roundtrip ⟨[10], [20, 30], 4⟩ (by decide) (by decide)

/-- C10: `MarshalSecret` stores the two length fields as 16-bit big-endian
values: the stored name and password lengths equal the true lengths modulo
`2^16`, hence exactly for lengths up to 65535; and when the name or the
password is longer than 65535 bytes the codec round trip no longer
reproduces the original `Secret`. -/
theorem c10_u16_length_fields (s : Secret) :
    Format.readUint16BE ((Format.MarshalSecret s).headD 0)
        (((Format.MarshalSecret s).drop 1).headD 0) = s.name.length % 65536 ∧
    Format.readUint16BE
        (((Format.MarshalSecret s).drop (2 + s.name.length)).headD 0)
        ((((Format.MarshalSecret s).drop (2 + s.name.length)).drop 1).headD 0)
      = s.password.length % 65536 ∧
    (s.name.length ≤ 65535 →
      Format.readUint16BE ((Format.MarshalSecret s).headD 0)
        (((Format.MarshalSecret s).drop 1).headD 0) = s.name.length) ∧
    (s.password.length ≤ 65535 →
      Format.readUint16BE
        (((Format.MarshalSecret s).drop (2 + s.name.length)).headD 0)
        ((((Format.MarshalSecret s).drop (2 + s.name.length)).drop 1).headD 0)
      = s.password.length) ∧
    (65535 < s.name.length ∨ 65535 < s.password.length →
      Format.UnmarshalSecret (Format.MarshalSecret s) ≠ .ok s) := by
  refine ⟨Format.marshalSecret_read_name s, Format.marshalSecret_read_password s,
    ?_, ?_, Format.unmarshalSecret_marshalSecret_ne_of_long s⟩
  · intro h
    rw [Format.marshalSecret_read_name s]
    omega
  · intro h
    rw [Format.marshalSecret_read_password s]
    omega

/-- Witness for C10: the in-range conjuncts evaluated on a small secret, and
the out-of-range conjunct on a secret with a 65536-byte name. -/
theorem c10_u16_length_fields_witness :
    Format.readUint16BE ((Format.MarshalSecret ⟨[1, 2, 3], [4], 0⟩).headD 0)
        (((Format.MarshalSecret ⟨[1, 2, 3], [4], 0⟩).drop 1).headD 0) = 3 ∧
    Format.UnmarshalSecret
        (Format.MarshalSecret ⟨List.replicate 65536 0, [], 0⟩)
      ≠ .ok ⟨List.replicate 65536 0, [], 0⟩ := by
  constructor
  · exact (c10_u16_length_fields ⟨[1, 2, 3], [4], 0⟩).2.2.1 (by decide)
  · exact (c10_u16_length_fields ⟨List.replicate 65536 0, [], 0⟩).2.2.2.2
      (Or.inl (by rw [List.length_replicate]; norm_num))

/-! ### List access helpers -/

theorem getD_drop_sub (l : Bytes) (i m d : Nat) (h : m ≤ i) :
    l.getD i d = (l.drop m).getD (i - m) d := by
  rw [List.getD_eq_getElem?_getD, List.getD_eq_getElem?_getD, List.getElem?_drop]
  have hmi : m + (i - m) = i := by omega
  rw [hmi]

theorem getD_append_left (l l2 : Bytes) (j d : Nat) (h : j < l.length) :
    (l ++ l2).getD j d = l.getD j d := by
  rw [List.getD_eq_getElem?_getD, List.getD_eq_getElem?_getD,
    List.getElem?_append_left h]

theorem eq_getD_of_set_eq (l : Bytes) (j b : Nat) (hj : j < l.length)
    (h : l.set j b = l) : b = l.getD j 0 := by
  have h1 := congrArg (fun t => t.getD j 0) h
  simp only at h1
  rw [List.getD_eq_getElem (l.set j b) 0 (by simp [hj]),
    List.getElem_set_self] at h1
  exact h1

/-! ### The concrete AEAD model satisfies the AEAD contract -/

namespace Encryption

theorem idealSeal_eq (k n pt : Bytes) :
    idealSeal k n pt = pt ++ (pt ++ (k ++ (n ++ [pt.length]))) := by
  simp [idealSeal]

theorem length_idealSeal (k n pt : Bytes) :
    (idealSeal k n pt).length = 2 * pt.length + k.length + n.length + 1 := by
  simp [idealSeal]
  omega

theorem idealSeal_getLast (k n pt : Bytes) :
    (idealSeal k n pt).getLast? = some pt.length := by
  rw [idealSeal]
  exact List.getLast?_concat _

theorem idealSeal_take_p (k n pt : Bytes) :
    (idealSeal k n pt).take pt.length = pt := by
  rw [idealSeal_eq]
  exact List.take_left pt _

theorem idealSeal_drop_p (k n pt : Bytes) :
    (idealSeal k n pt).drop pt.length = pt ++ (k ++ (n ++ [pt.length])) := by
  rw [idealSeal_eq]
  exact List.drop_left pt _

theorem idealSeal_drop_2p (k n pt : Bytes) :
    (idealSeal k n pt).drop (2 * pt.length) = k ++ (n ++ [pt.length]) := by
  have h := List.drop_drop pt.length pt.length (idealSeal k n pt)
  rw [idealSeal_drop_p, List.drop_left] at h
  rw [two_mul]
  exact h.symm

theorem idealSeal_drop_2pk (k n pt : Bytes) :
    (idealSeal k n pt).drop (2 * pt.length + k.length) = n ++ [pt.length] := by
  have h := List.drop_drop k.length (2 * pt.length) (idealSeal k n pt)
  rw [idealSeal_drop_2p, List.drop_left] at h
  exact h.symm

theorem idealSeal_drop_2pkn (k n pt : Bytes) :
    (idealSeal k n pt).drop (2 * pt.length + k.length + n.length)
      = [pt.length] := by
  have h := List.drop_drop n.length (2 * pt.length + k.length)
    (idealSeal k n pt)
  rw [idealSeal_drop_2pk, List.drop_left] at h
  exact h.symm

theorem idealOpn_idealSeal (k n pt : Bytes) :
    idealOpn k n (idealSeal k n pt) = some pt := by
  rw [idealOpn]
  simp only [idealSeal_getLast, Option.getD_some]
  rw [if_pos (length_idealSeal k n pt)]
  rw [if_pos ?_, idealSeal_take_p]
  refine ⟨?_, ?_, ?_⟩
  · rw [idealSeal_drop_p, idealSeal_take_p, List.take_left]
  · rw [idealSeal_drop_2p, List.take_left]
  · rw [idealSeal_drop_2pk, List.take_left]

theorem idealOpn_some {k n ct pt : Bytes} (h : idealOpn k n ct = some pt) :
    ct = idealSeal k n pt := by
  rw [idealOpn] at h
  split_ifs at h with hL hC
  obtain ⟨c1, c2, c3⟩ := hC
  have hl : ct.getLast? = some (ct.getLast?.getD 0) := by
    rcases ho : ct.getLast? with - | v
    · rw [List.getLast?_eq_none_iff] at ho
      rw [ho] at hL
      simp at hL
    · rfl
  set plen := ct.getLast?.getD 0 with hplendef
  injection h with hpt
  have hplen : pt.length = plen := by
    rw [← hpt]
    simp only [List.length_take]
    omega
  have htail : ct.drop (2 * plen + k.length + n.length) = [plen] := by
    have hlen1 : (ct.drop (2 * plen + k.length + n.length)).length = 1 := by
      simp only [List.length_drop]
      omega
    have hlast1 : (ct.drop (2 * plen + k.length + n.length)).getLast?
        = some plen := by
      rw [List.getLast?_drop, if_neg (by omega)]
      exact hl
    obtain ⟨a, ha⟩ : ∃ a, ct.drop (2 * plen + k.length + n.length) = [a] := by
      match hm : ct.drop (2 * plen + k.length + n.length) with
      | [] => rw [hm] at hlen1; simp at hlen1
      | [a] => exact ⟨a, rfl⟩
      | a :: b :: t => rw [hm] at hlen1; simp at hlen1
    rw [ha] at hlast1
    simp only [List.getLast?_singleton, Option.some.injEq] at hlast1
    rw [ha, hlast1]
  have hdd : (ct.drop plen).drop plen = ct.drop (2 * plen) := by
    rw [List.drop_drop]
    have h2 : plen + plen = 2 * plen := by omega
    rw [h2]
  have e2 : ct.drop plen = (ct.drop plen).take plen ++ ct.drop (2 * plen) := by
    conv_lhs => rw [← List.take_append_drop plen (ct.drop plen)]
    rw [hdd]
  have e3 : ct.drop (2 * plen) = k ++ ct.drop (2 * plen + k.length) := by
    conv_lhs => rw [← List.take_append_drop k.length (ct.drop (2 * plen))]
    rw [c2, List.drop_drop]
  have e4 : ct.drop (2 * plen + k.length) = n ++ [plen] := by
    conv_lhs =>
      rw [← List.take_append_drop n.length (ct.drop (2 * plen + k.length))]
    rw [c3, List.drop_drop, htail]
  have hcopy : (ct.drop plen).take plen = pt := by rw [c1, hpt]
  rw [idealSeal_eq, hplen]
  conv_lhs => rw [← List.take_append_drop plen ct]
  rw [e2, hcopy, e3, e4, hpt]

end Encryption

namespace Encryption

theorem idealSeal_inj {k k' n pt pt' : Bytes}
    (h : idealSeal k n pt = idealSeal k' n pt') : k = k' := by
  have hlast := congrArg List.getLast? h
  rw [idealSeal_getLast, idealSeal_getLast] at hlast
  have hp : pt.length = pt'.length := by simpa using hlast
  have hlen := congrArg List.length h
  rw [length_idealSeal, length_idealSeal] at hlen
  have hκ : k.length = k'.length := by omega
  have hk := congrArg (fun l => (l.drop (2 * pt.length)).take k.length) h
  simp only at hk
  rw [idealSeal_drop_2p, List.take_left] at hk
  rw [hp] at hk
  rw [idealSeal_drop_2p] at hk
  rw [hκ, List.take_left] at hk
  exact hk

theorem idealOpn_set {k n pt : Bytes} {j b : Nat}
    (hj : j < (idealSeal k n pt).length)
    (hb : b ≠ (idealSeal k n pt).getD j 0) :
    idealOpn k n ((idealSeal k n pt).set j b) = none := by
  rcases ho : idealOpn k n ((idealSeal k n pt).set j b) with - | pt'
  · rfl
  exfalso
  have hset : (idealSeal k n pt).set j b = idealSeal k n pt' := idealOpn_some ho
  have hlenS := length_idealSeal k n pt
  have hlen' := congrArg List.length hset
  rw [List.length_set, length_idealSeal, length_idealSeal] at hlen'
  have hp : pt'.length = pt.length := by omega
  have d1 : (idealSeal k n pt').take pt.length = pt' := by
    rw [← hp]; exact idealSeal_take_p k n pt'
  have d2 : ((idealSeal k n pt').drop pt.length).take pt.length = pt' := by
    rw [← hp, idealSeal_drop_p]; exact List.take_left pt' _
  have d3 : (idealSeal k n pt').drop (2 * pt.length)
      = k ++ (n ++ [pt'.length]) := by
    rw [← hp]; exact idealSeal_drop_2p k n pt'
  have d4 : (idealSeal k n pt').drop (2 * pt.length + k.length)
      = n ++ [pt'.length] := by
    rw [← hp]; exact idealSeal_drop_2pk k n pt'
  have d5 : (idealSeal k n pt').drop (2 * pt.length + k.length + n.length)
      = [pt'.length] := by
    rw [← hp]; exact idealSeal_drop_2pkn k n pt'
  rcases lt_or_ge j pt.length with hA | h1
  · have e1 := congrArg (List.take pt.length) hset
    rw [List.set_take, idealSeal_take_p, d1] at e1
    have e2 := congrArg (fun l => (l.drop pt.length).take pt.length) hset
    simp only at e2
    rw [List.drop_set, if_pos hA, idealSeal_drop_p, List.take_left, d2] at e2
    rw [← e2] at e1
    have hbj := eq_getD_of_set_eq pt j b hA e1
    have hS : (idealSeal k n pt).getD j 0 = pt.getD j 0 := by
      rw [idealSeal_eq]; exact getD_append_left pt _ j 0 hA
    exact hb (by rw [hS]; exact hbj)
  rcases lt_or_ge j (2 * pt.length) with hB | h2
  · have e1 := congrArg (List.take pt.length) hset
    rw [List.set_take, idealSeal_take_p,
      List.set_eq_of_length_le (by omega : pt.length ≤ j), d1] at e1
    have e2 := congrArg (fun l => (l.drop pt.length).take pt.length) hset
    simp only at e2
    rw [List.drop_set, if_neg (by omega), List.set_take, idealSeal_drop_p,
      List.take_left, d2] at e2
    rw [← e1] at e2
    have hlt : j - pt.length < pt.length := by omega
    have hbj := eq_getD_of_set_eq pt (j - pt.length) b hlt e2
    have hS : (idealSeal k n pt).getD j 0 = pt.getD (j - pt.length) 0 := by
      rw [getD_drop_sub _ j pt.length 0 h1, idealSeal_drop_p]
      exact getD_append_left pt _ _ 0 hlt
    exact hb (by rw [hS]; exact hbj)
  rcases lt_or_ge j (2 * pt.length + k.length) with hC | h3
  · have e := congrArg (fun l => (l.drop (2 * pt.length)).take k.length) hset
    simp only at e
    rw [List.drop_set, if_neg (by omega), List.set_take, idealSeal_drop_2p,
      List.take_left, d3, List.take_left] at e
    have hlt : j - 2 * pt.length < k.length := by omega
    have hbj := eq_getD_of_set_eq k (j - 2 * pt.length) b hlt e
    have hS : (idealSeal k n pt).getD j 0 = k.getD (j - 2 * pt.length) 0 := by
      rw [getD_drop_sub _ j (2 * pt.length) 0 (by omega), idealSeal_drop_2p]
      exact getD_append_left k _ _ 0 hlt
    exact hb (by rw [hS]; exact hbj)
  rcases lt_or_ge j (2 * pt.length + k.length + n.length) with hD | h4
  · have e := congrArg
      (fun l => (l.drop (2 * pt.length + k.length)).take n.length) hset
    simp only at e
    rw [List.drop_set, if_neg (by omega), List.set_take, idealSeal_drop_2pk,
      List.take_left, d4, List.take_left] at e
    have hlt : j - (2 * pt.length + k.length) < n.length := by omega
    have hbj := eq_getD_of_set_eq n (j - (2 * pt.length + k.length)) b hlt e
    have hS : (idealSeal k n pt).getD j 0
        = n.getD (j - (2 * pt.length + k.length)) 0 := by
      rw [getD_drop_sub _ j (2 * pt.length + k.length) 0 (by omega),
        idealSeal_drop_2pk]
      exact getD_append_left n _ _ 0 hlt
    exact hb (by rw [hS]; exact hbj)
  · have e := congrArg
      (fun l => l.drop (2 * pt.length + k.length + n.length)) hset
    simp only at e
    rw [List.drop_set, if_neg (by omega), idealSeal_drop_2pkn, d5] at e
    have hj0 : j - (2 * pt.length + k.length + n.length) = 0 := by omega
    rw [hj0] at e
    simp only [List.set] at e
    injection e with e1 e2
    have hS : (idealSeal k n pt).getD j 0 = pt.length := by
      rw [getD_drop_sub _ j (2 * pt.length + k.length + n.length) 0 (by omega),
        idealSeal_drop_2pkn, hj0]
      rfl
    rw [hp] at e1
    exact hb (by rw [hS]; exact e1)

end Encryption

namespace Encryption

open Format

theorem getArgonDeriveKey_ok (idK : Bytes → Bytes → Nat → Nat → Nat → Nat → Bytes)
    (mk salt : Bytes) (hmk : mk ≠ []) (hsalt : salt.length = 16) :
    getArgonDeriveKey idK mk salt = .ok (idK mk salt 6 (128 * 1024) 4 32) := by
  rw [getArgonDeriveKey, if_neg (by simp [hsalt, MSK_SALT_SIZE]),
    if_neg (by simp [List.length_eq_zero, hmk])]

theorem encrypt_eq (A : AEAD) (idK : Bytes → Bytes → Nat → Nat → Nat → Nat → Bytes)
    (mk salt nonce : Bytes) (s : Secret)
    (hmk : mk ≠ []) (hsalt : salt.length = 16) (hnonce : nonce.length = 12)
    (hklen : aesKeyLenOK (idK mk salt 6 (128 * 1024) 4 32) = true) :
    Encrypt A idK (some mk) salt nonce s
      = .ok (envelope salt nonce
          (A.sealFn (idK mk salt 6 (128 * 1024) 4 32) nonce
            (MarshalSecret s))) := by
  simp only [Encrypt, getArgonDeriveKey_ok idK mk salt hmk hsalt]
  rw [if_pos hklen]
  exact marshalFile_eq _ _ _ hsalt hnonce

theorem decrypt_eq (A : AEAD) (idK : Bytes → Bytes → Nat → Nat → Nat → Nat → Bytes)
    (mk env salt nonce ct key : Bytes)
    (hun : UnmarshalFile env = .ok (salt, nonce, ct))
    (hkey : getArgonDeriveKey idK mk salt = .ok key)
    (hklen : aesKeyLenOK key = true) :
    Decrypt A idK (some mk) env
      = match A.opnFn key nonce ct with
        | none => .error .decryption
        | some fileBytes => UnmarshalSecret fileBytes := by
  simp only [Decrypt, hun, hkey]
  rw [if_pos hklen]

end Encryption

namespace Format

theorem envelope_set (salt nonce ct : Bytes)
    (hs : salt.length = 16) (hn : nonce.length = 12) (j b : Nat) :
    (envelope salt nonce ct).set (32 + j) b
      = envelope salt nonce (ct.set j b) := by
  have h1 : envelope salt nonce ct
      = ([77, 83, 75, 1] ++ (salt ++ nonce)) ++ ct := by
    simp [envelope, MSK_FILE_VERSION]
  have h2 : envelope salt nonce (ct.set j b)
      = ([77, 83, 75, 1] ++ (salt ++ nonce)) ++ ct.set j b := by
    simp [envelope, MSK_FILE_VERSION]
  have hlen : (([77, 83, 75, 1] ++ (salt ++ nonce)) : Bytes).length = 32 := by
    simp [hs, hn]
  rw [h1, h2, List.set_append, hlen, if_neg (by omega)]
  have h3 : 32 + j - 32 = j := by omega
  rw [h3]

end Format

/-! ### Claims about the cipher layer -/

/-- Counterexample to C1 as stated: with the concrete AEAD and KDF models,
decrypting the encryption of a secret whose `CreatedAt` is 7 yields the
secret with `CreatedAt` 0 — the three fields are not all preserved, because
the serialized record drops the timestamp. -/
theorem c1_counterexample :
    Encryption.Decrypt Encryption.idealAEAD Encryption.idealIdKey
        (Encryption.ConfigMK Encryption.NewArgonCrypt [1])
        ((Encryption.Encrypt Encryption.idealAEAD Encryption.idealIdKey
            (Encryption.ConfigMK Encryption.NewArgonCrypt [1])
            (List.replicate 16 2) (List.replicate 12 3)
            ⟨[97], [98], 7⟩).toOption.getD [])
      = .ok ⟨[97], [98], 0⟩ ∧
    (Secret.mk [97] [98] 0) ≠ ⟨[97], [98], 7⟩ := by
  constructor
  · decide
  · decide

/-- C1 (amended): for any AEAD primitive whose decryption inverts its
encryption, any configured non-empty master key, fresh 16-byte salt and
12-byte nonce, and any secret whose name and password fit the 16-bit length
fields, `Decrypt` on the output of `Encrypt` under the same master key
succeeds and returns the secret's `Name` and `Password`; `CreatedAt` comes
back as the zero timestamp since it is not serialized. -/
theorem c1_encrypt_decrypt_roundtrip
    (A : Encryption.AEAD) (idK : Bytes → Bytes → Nat → Nat → Nat → Nat → Bytes)
    (mk salt nonce : Bytes) (s : Secret)
    (hA : ∀ k n p, A.opnFn k n (A.sealFn k n p) = some p)
    (hmk : mk ≠ []) (hsalt : salt.length = 16) (hnonce : nonce.length = 12)
    (hklen : Encryption.aesKeyLenOK (idK mk salt 6 (128 * 1024) 4 32) = true)
    (hname : s.name.length ≤ 65535) (hpass : s.password.length ≤ 65535) :
    ∀ env, Encryption.Encrypt A idK (some mk) salt nonce s = .ok env →
      Encryption.Decrypt A idK (some mk) env
        = .ok ⟨s.name, s.password, 0⟩ := by
  intro env henv
  rw [Encryption.encrypt_eq A idK mk salt nonce s hmk hsalt hnonce hklen]
    at henv
  injection henv with henv'
  subst henv'
  have hun := Format.unmarshalFile_envelope salt nonce
    (A.sealFn (idK mk salt 6 (128 * 1024) 4 32) nonce
      (Format.MarshalSecret s)) hsalt hnonce
  rw [Encryption.decrypt_eq A idK mk _ salt nonce _ _ hun
    (Encryption.getArgonDeriveKey_ok idK mk salt hmk hsalt) hklen]
  rw [hA]
  exact Format.unmarshalSecret_marshalSecret s hname hpass

/-- Witness for C1 with the concrete AEAD/KDF models on explicit inputs. -/
theorem c1_encrypt_decrypt_roundtrip_witness :
    Encryption.Decrypt Encryption.idealAEAD Encryption.idealIdKey (some [1])
        ((Encryption.Encrypt Encryption.idealAEAD Encryption.idealIdKey
            (some [1]) (List.replicate 16 2) (List.replicate 12 3)
            ⟨[97], [98], 7⟩).toOption.getD [])
      = .ok ⟨[97], [98], 0⟩ :=
  c1_encrypt_decrypt_roundtrip Encryption.idealAEAD Encryption.idealIdKey
    [1] (List.replicate 16 2) (List.replicate 12 3) ⟨[97], [98], 7⟩
    (fun k n p => Encryption.idealOpn_idealSeal k n p)
    (by decide) (by decide) (by decide) (by decide) (by decide) (by decide)
    _ (by decide)

/-- C2: decrypting an envelope produced under master key A with a master key
whose derived key differs fails with `DecryptionFailed`; flipping any single
byte of the envelope's ciphertext region fails with `DecryptionFailed`; and
past key derivation the GCM open is the only key-dependent check — its
failure is mapped to `DecryptionFailed` and its success goes straight to
record deserialization, with no separate key-verification step. -/
theorem c2_wrong_key_and_tamper
    (A : Encryption.AEAD) (idK : Bytes → Bytes → Nat → Nat → Nat → Nat → Bytes)
    (hauth : ∀ k n ct p, A.opnFn k n ct = some p → ct = A.sealFn k n p)
    (hkeybind : ∀ k k' n p p', A.sealFn k n p = A.sealFn k' n p' → k = k')
    (htamper : ∀ k n p j b, j < (A.sealFn k n p).length →
      b ≠ (A.sealFn k n p).getD j 0 →
      A.opnFn k n ((A.sealFn k n p).set j b) = none)
    (mkA mkB salt nonce : Bytes) (s : Secret)
    (hmkA : mkA ≠ []) (hmkB : mkB ≠ [])
    (hsalt : salt.length = 16) (hnonce : nonce.length = 12)
    (hlenA : Encryption.aesKeyLenOK (idK mkA salt 6 (128 * 1024) 4 32) = true)
    (hlenB : Encryption.aesKeyLenOK (idK mkB salt 6 (128 * 1024) 4 32) = true)
    (hkeys : idK mkB salt 6 (128 * 1024) 4 32
      ≠ idK mkA salt 6 (128 * 1024) 4 32)
    (env : Bytes)
    (henv : Encryption.Encrypt A idK (some mkA) salt nonce s = .ok env) :
    Encryption.Decrypt A idK (some mkB) env = .error .decryption ∧
    (∀ j b,
      j < (A.sealFn (idK mkA salt 6 (128 * 1024) 4 32) nonce
        (Format.MarshalSecret s)).length →
      b ≠ (A.sealFn (idK mkA salt 6 (128 * 1024) 4 32) nonce
        (Format.MarshalSecret s)).getD j 0 →
      Encryption.Decrypt A idK (some mkA) (env.set (32 + j) b)
        = .error .decryption) ∧
    (∀ mk key data s' n' c', Format.UnmarshalFile data = .ok (s', n', c') →
      Encryption.getArgonDeriveKey idK mk s' = .ok key →
      Encryption.aesKeyLenOK key = true →
      Encryption.Decrypt A idK (some mk) data
        = match A.opnFn key n' c' with
          | none => .error .decryption
          | some pt => Format.UnmarshalSecret pt) := by
  rw [Encryption.encrypt_eq A idK mkA salt nonce s hmkA hsalt hnonce hlenA]
    at henv
  injection henv with henv'
  subst henv'
  refine ⟨?_, ?_, ?_⟩
  · have hun := Format.unmarshalFile_envelope salt nonce
      (A.sealFn (idK mkA salt 6 (128 * 1024) 4 32) nonce
        (Format.MarshalSecret s)) hsalt hnonce
    rw [Encryption.decrypt_eq A idK mkB _ salt nonce _ _ hun
      (Encryption.getArgonDeriveKey_ok idK mkB salt hmkB hsalt) hlenB]
    rcases hop : A.opnFn (idK mkB salt 6 (128 * 1024) 4 32) nonce
        (A.sealFn (idK mkA salt 6 (128 * 1024) 4 32) nonce
          (Format.MarshalSecret s)) with - | pt
    · rfl
    · exfalso
      have hct := hauth _ _ _ _ hop
      exact hkeys (hkeybind _ _ _ _ _ hct.symm)
  · intro j b hj hb
    rw [Format.envelope_set salt nonce _ hsalt hnonce j b]
    have hun := Format.unmarshalFile_envelope salt nonce
      ((A.sealFn (idK mkA salt 6 (128 * 1024) 4 32) nonce
        (Format.MarshalSecret s)).set j b) hsalt hnonce
    rw [Encryption.decrypt_eq A idK mkA _ salt nonce _ _ hun
      (Encryption.getArgonDeriveKey_ok idK mkA salt hmkA hsalt) hlenA]
    rw [htamper _ _ _ j b hj hb]
  · intro mk key data s' n' c' hu hk hl
    exact Encryption.decrypt_eq A idK mk data s' n' c' key hu hk hl

/-- Witness for C2 with the concrete AEAD/KDF models: a wrong master key is
rejected, and flipping ciphertext byte 0 of the envelope is rejected. -/
theorem c2_wrong_key_and_tamper_witness :
    Encryption.Decrypt Encryption.idealAEAD Encryption.idealIdKey (some [2])
        ((Encryption.Encrypt Encryption.idealAEAD Encryption.idealIdKey
            (some [1]) (List.replicate 16 2) (List.replicate 12 3)
            ⟨[97], [98], 0⟩).toOption.getD [])
      = .error .decryption ∧
    Encryption.Decrypt Encryption.idealAEAD Encryption.idealIdKey (some [1])
        (((Encryption.Encrypt Encryption.idealAEAD Encryption.idealIdKey
            (some [1]) (List.replicate 16 2) (List.replicate 12 3)
            ⟨[97], [98], 0⟩).toOption.getD []).set 32 5)
      = .error .decryption := by
  have h := c2_wrong_key_and_tamper Encryption.idealAEAD Encryption.idealIdKey
    (fun k n ct p hop => Encryption.idealOpn_some hop)
    (fun k k' n p p' hs => Encryption.idealSeal_inj hs)
    (fun k n p j b hj hb => Encryption.idealOpn_set hj hb)
    [1] [2] (List.replicate 16 2) (List.replicate 12 3) ⟨[97], [98], 0⟩
    (by decide) (by decide) (by decide) (by decide) (by decide) (by decide)
    (by decide)
    ((Encryption.Encrypt Encryption.idealAEAD Encryption.idealIdKey
        (some [1]) (List.replicate 16 2) (List.replicate 12 3)
        ⟨[97], [98], 0⟩).toOption.getD [])
    (by decide)
  exact ⟨h.1, h.2.1 0 5 (by decide) (by decide)⟩

/-- Counterexample to C3 as stated: recording the arguments the KDF passes to
Argon2id shows time cost 6 and memory cost 128*1024 KiB (128 MiB), not the
claimed time cost 2 and 64 MiB (64*1024 KiB). -/
theorem c3_counterexample :
    Encryption.getArgonDeriveKey (fun _ _ t m p l => [t, m, p, l]) [1]
        (List.replicate 16 0)
      = .ok [6, 131072, 4, 32] ∧
    ([6, 131072, 4, 32] : Bytes) ≠ [2, 65536, 4, 32] := by
  constructor
  · decide
  · decide

/-- C3 (amended): for every non-empty master key and every 16-byte salt the
key-derivation function invokes Argon2id (`argon2.IDKey`) with time cost 6,
memory cost 128 MiB (128*1024 KiB), parallelism 4 and output length 32
bytes. -/
theorem c3_argon_parameters
    (idK : Bytes → Bytes → Nat → Nat → Nat → Nat → Bytes)
    (mk salt : Bytes) (hmk : mk ≠ []) (hsalt : salt.length = 16) :
    Encryption.getArgonDeriveKey idK mk salt
      = .ok (idK mk salt 6 (128 * 1024) 4 32) :=
  Encryption.getArgonDeriveKey_ok idK mk salt hmk hsalt

/-- Witness for C3 with an argument-recording KDF on a concrete input. -/
theorem c3_argon_parameters_witness :
    Encryption.getArgonDeriveKey (fun _ _ t m p l => [t, m, p, l]) [5]
        (List.replicate 16 0)
      = .ok [6, 131072, 4, 32] :=
  c3_argon_parameters (fun _ _ t m p l => [t, m, p, l]) [5]
    (List.replicate 16 0) (by decide) (by decide)

/-! ### Vault-directory lemmas -/

namespace Storage

theorem fsGet_fsSet_self (σ : FS) (p v : Bytes) :
    fsGet (fsSet σ p v) p = some v := by
  simp [fsGet, fsSet, List.find?_cons]

theorem fsGet_eraseKey_self (σ : FS) (p : Bytes) :
    fsGet (eraseKey σ p) p = none := by
  induction σ with
  | nil => rfl
  | cons a t ih =>
    by_cases ha : a.1 = p
    · simpa [eraseKey, List.filter_cons, ha] using ih
    · simpa [eraseKey, fsGet, List.filter_cons, List.find?_cons, ha] using ih

theorem fsGet_eraseKey_ne (σ : FS) (p q : Bytes) (h : q ≠ p) :
    fsGet (eraseKey σ p) q = fsGet σ q := by
  have hpq : ¬p = q := fun e => h e.symm
  induction σ with
  | nil => rfl
  | cons a t ih =>
    by_cases haq : a.1 = q
    · have hap : ¬a.1 = p := by rw [haq]; exact h
      simp [eraseKey, fsGet, List.filter_cons, List.find?_cons, haq, hap, h,
        hpq]
    · by_cases hap : a.1 = p
      · simpa [eraseKey, fsGet, List.filter_cons, List.find?_cons, haq, hap,
          h, hpq] using ih
      · simpa [eraseKey, fsGet, List.filter_cons, List.find?_cons, haq, hap,
          h, hpq] using ih

theorem fsGet_fsSet_ne (σ : FS) (p q v : Bytes) (h : q ≠ p) :
    fsGet (fsSet σ p v) q = fsGet σ q := by
  have hpq : ¬p = q := fun e => h e.symm
  have h1 : fsGet ((p, v) :: eraseKey σ p) q = fsGet (eraseKey σ p) q := by
    simp [fsGet, List.find?_cons, hpq]
  rw [fsSet, h1, fsGet_eraseKey_ne σ p q h]

theorem path_ne_tmp (p : Bytes) : p ≠ p ++ tmpExt := by
  intro h
  have := congrArg List.length h
  simp [tmpExt] at this

theorem savePath_hasSub_msk (name : Bytes) :
    hasSub (savePath name) mskExt = true := by
  rw [savePath]
  generalize toLowerAscii name = x
  induction x with
  | nil => decide
  | cons a t ih =>
    rw [List.cons_append, hasSub]
    rw [ih]
    simp

end Storage

/-! ### Claims about the repository and the master-key lifecycle -/

set_option maxHeartbeats 1600000 in
/-- C4: under every fault pattern, if `SaveFile` fails at any step then the
previously existing vault file for that name is unchanged and no `.tmp` file
for that name remains (given the vault-directory invariant that no stale
`.tmp` file predates the call); on success the target file contains exactly
the new envelope, the marshalled form of the salt, nonce and ciphertext. -/
theorem c4_atomic_save (f : Storage.SaveFaults) (σ : Storage.FS)
    (salt nonce data name : Bytes)
    (hsalt : salt.length = 16) (hnonce : nonce.length = 12)
    (htmp : Storage.fsGet σ (Storage.savePath name ++ Storage.tmpExt)
      = none) :
    ∀ r σ', Storage.SaveFile f σ salt nonce data name = (r, σ') →
      ((∃ e, r = .error e) →
        Storage.fsGet σ' (Storage.savePath name)
          = Storage.fsGet σ (Storage.savePath name) ∧
        Storage.fsGet σ' (Storage.savePath name ++ Storage.tmpExt) = none) ∧
      (r = .ok () →
        Storage.fsGet σ' (Storage.savePath name)
          = some (Format.envelope salt nonce data) ∧
        Storage.fsGet σ' (Storage.savePath name ++ Storage.tmpExt) = none ∧
        Format.MarshalFile salt nonce data
          = .ok (Format.envelope salt nonce data)) := by
  intro r σ' hsf
  have hne : Storage.savePath name ≠ Storage.savePath name ++ Storage.tmpExt :=
    Storage.path_ne_tmp _
  rw [Storage.SaveFile] at hsf
  split_ifs at hsf with h1 h2 h3 h4 h5 h6 h7 h8 h9 h10
  all_goals try simp only [] at hsf
  all_goals injection hsf with hr hσ
  all_goals subst hr
  all_goals subst hσ
  · exact ⟨fun _ => ⟨rfl, htmp⟩, fun hok => Except.noConfusion hok⟩
  · exact ⟨fun _ => ⟨rfl, htmp⟩, fun hok => Except.noConfusion hok⟩
  · refine ⟨fun _ => ⟨?_, Storage.fsGet_eraseKey_self _ _⟩,
      fun hok => Except.noConfusion hok⟩
    rw [Storage.fsGet_eraseKey_ne _ _ _ hne]
    simp [Storage.fsGet_fsSet_ne, hne]
  · refine ⟨fun _ => ⟨?_, Storage.fsGet_eraseKey_self _ _⟩,
      fun hok => Except.noConfusion hok⟩
    rw [Storage.fsGet_eraseKey_ne _ _ _ hne]
    simp [Storage.fsGet_fsSet_ne, hne]
  · refine ⟨fun _ => ⟨?_, Storage.fsGet_eraseKey_self _ _⟩,
      fun hok => Except.noConfusion hok⟩
    rw [Storage.fsGet_eraseKey_ne _ _ _ hne]
    simp [Storage.fsGet_fsSet_ne, hne]
  · refine ⟨fun _ => ⟨?_, Storage.fsGet_eraseKey_self _ _⟩,
      fun hok => Except.noConfusion hok⟩
    rw [Storage.fsGet_eraseKey_ne _ _ _ hne]
    simp [Storage.fsGet_fsSet_ne, hne]
  · refine ⟨fun _ => ⟨?_, Storage.fsGet_eraseKey_self _ _⟩,
      fun hok => Except.noConfusion hok⟩
    rw [Storage.fsGet_eraseKey_ne _ _ _ hne]
    simp [Storage.fsGet_fsSet_ne, hne]
  · refine ⟨fun _ => ⟨?_, Storage.fsGet_eraseKey_self _ _⟩,
      fun hok => Except.noConfusion hok⟩
    rw [Storage.fsGet_eraseKey_ne _ _ _ hne]
    simp [Storage.fsGet_fsSet_ne, hne]
  · refine ⟨fun _ => ⟨?_, Storage.fsGet_eraseKey_self _ _⟩,
      fun hok => Except.noConfusion hok⟩
    rw [Storage.fsGet_eraseKey_ne _ _ _ hne]
    simp [Storage.fsGet_fsSet_ne, hne]
  · refine ⟨fun _ => ⟨?_, Storage.fsGet_eraseKey_self _ _⟩,
      fun hok => Except.noConfusion hok⟩
    rw [Storage.fsGet_eraseKey_ne _ _ _ hne]
    simp [Storage.fsGet_fsSet_ne, hne]
  · refine ⟨fun he => ?_,
      fun _ => ⟨?_, Storage.fsGet_eraseKey_self _ _,
        Format.marshalFile_eq _ _ _ hsalt hnonce⟩⟩
    · obtain ⟨e, he⟩ := he
      exact Except.noConfusion he
    · rw [Storage.fsGet_eraseKey_ne _ _ _ hne, Storage.fsGet_fsSet_self]
      simp [Format.envelope, Format.MSK_MAGIC, Format.MSK_FILE_VERSION]

/-- Witness for C4: a failed rename leaves the existing file and no `.tmp`
behind; a fault-free save stores the envelope, on explicit inputs. -/
theorem c4_atomic_save_witness :
    (Storage.fsGet (Storage.SaveFile
        ⟨false, false, false, false, false, false, false, false, false, true⟩
        [(Storage.savePath [97], [9])] (List.replicate 16 0)
        (List.replicate 12 0) [7] [97]).2 (Storage.savePath [97])
      = Storage.fsGet [(Storage.savePath [97], [9])] (Storage.savePath [97])) ∧
    (Storage.fsGet (Storage.SaveFile
        ⟨false, false, false, false, false, false, false, false, false, true⟩
        [(Storage.savePath [97], [9])] (List.replicate 16 0)
        (List.replicate 12 0) [7] [97]).2
        (Storage.savePath [97] ++ Storage.tmpExt) = none) ∧
    (Storage.fsGet (Storage.SaveFile
        ⟨false, false, false, false, false, false, false, false, false, false⟩
        [(Storage.savePath [97], [9])] (List.replicate 16 0)
        (List.replicate 12 0) [7] [97]).2 (Storage.savePath [97])
      = some (Format.envelope (List.replicate 16 0)
          (List.replicate 12 0) [7])) := by
  have h1 := c4_atomic_save
    ⟨false, false, false, false, false, false, false, false, false, true⟩
    [(Storage.savePath [97], [9])] (List.replicate 16 0) (List.replicate 12 0)
    [7] [97] (by decide) (by decide) (by decide)
    (Storage.SaveFile
      ⟨false, false, false, false, false, false, false, false, false, true⟩
      [(Storage.savePath [97], [9])] (List.replicate 16 0)
      (List.replicate 12 0) [7] [97]).1
    (Storage.SaveFile
      ⟨false, false, false, false, false, false, false, false, false, true⟩
      [(Storage.savePath [97], [9])] (List.replicate 16 0)
      (List.replicate 12 0) [7] [97]).2 rfl
  have h2 := c4_atomic_save
    ⟨false, false, false, false, false, false, false, false, false, false⟩
    [(Storage.savePath [97], [9])] (List.replicate 16 0) (List.replicate 12 0)
    [7] [97] (by decide) (by decide) (by decide)
    (Storage.SaveFile
      ⟨false, false, false, false, false, false, false, false, false, false⟩
      [(Storage.savePath [97], [9])] (List.replicate 16 0)
      (List.replicate 12 0) [7] [97]).1
    (Storage.SaveFile
      ⟨false, false, false, false, false, false, false, false, false, false⟩
      [(Storage.savePath [97], [9])] (List.replicate 16 0)
      (List.replicate 12 0) [7] [97]).2 rfl
  exact ⟨(h1.1 ⟨.ioFault, by decide⟩).1, (h1.1 ⟨.ioFault, by decide⟩).2,
    (h2.2 (by decide)).1⟩

/-- Counterexample to C8 as stated: for a vault directory holding the single
regular file `"a.msk"`, the listing returns `"a.msk"` — the file name with
the suffix — not the bare name `"a"`. -/
theorem c8_counterexample :
    Storage.GetFiles [⟨[97, 46, 109, 115, 107], false⟩]
      = [[97, 46, 109, 115, 107]] ∧
    Storage.GetFiles [⟨[97, 46, 109, 115, 107], false⟩] ≠ [[97]] := by
  exact ⟨by decide, by decide⟩

/-- C8 (amended): `storage.Store.GetFiles` returns exactly the names — kept
verbatim, suffix included — of the non-directory entries whose name contains
`".msk"` as a substring; the saved file of a name, `ToLower(name) + ".msk"`,
passes that filter, so a listing holding the saved entry lists it; and the
context-aware `file.Store.GetFiles` returns an empty listing even when the
directory reads successfully (its error check is inverted). -/
theorem c8_getfiles_behaviour (es : List Storage.DirEntry) (name : Bytes) :
    (∀ e, e ∈ es → e.isDir = false →
      Storage.hasSub e.name Storage.mskExt = true →
      e.name ∈ Storage.GetFiles es) ∧
    (∀ m, m ∈ Storage.GetFiles es →
      (⟨m, false⟩ : Storage.DirEntry) ∈ es ∧
      Storage.hasSub m Storage.mskExt = true) ∧
    Storage.hasSub (Storage.savePath name) Storage.mskExt = true ∧
    ((⟨Storage.savePath name, false⟩ : Storage.DirEntry) ∈ es →
      Storage.savePath name ∈ Storage.GetFiles es) ∧
    Storage.fileStoreGetFiles false (some es) = .ok [] := by
  have h1 : ∀ e, e ∈ es → e.isDir = false →
      Storage.hasSub e.name Storage.mskExt = true →
      e.name ∈ Storage.GetFiles es := by
    intro e he hd hs
    rw [Storage.GetFiles]
    exact List.mem_map.mpr ⟨e, List.mem_filter.mpr ⟨he, by simp [hd, hs]⟩, rfl⟩
  refine ⟨h1, ?_, Storage.savePath_hasSub_msk name,
    fun hmem => h1 _ hmem rfl (Storage.savePath_hasSub_msk name), rfl⟩
  intro m hm
  rw [Storage.GetFiles] at hm
  obtain ⟨e, hef, hname⟩ := List.mem_map.mp hm
  obtain ⟨hees, hcond⟩ := List.mem_filter.mp hef
  simp only [Bool.and_eq_true, Bool.not_eq_true'] at hcond
  obtain ⟨hd, hs⟩ := hcond
  obtain ⟨en, ed⟩ := e
  simp only at hname hd hs
  subst hname
  subst hd
  exact ⟨hees, hs⟩

/-- Witness for C8 on a concrete listing: the saved file name of `"a"` is
listed (with its suffix). -/
theorem c8_getfiles_behaviour_witness :
    Storage.savePath [97]
      ∈ Storage.GetFiles [⟨Storage.savePath [97], false⟩] :=
  (c8_getfiles_behaviour [⟨Storage.savePath [97], false⟩] [97]).2.2.2.1
    (by decide)

/-- C9: with no master key configured — a fresh `NewArgonCrypt`, or any state
after `DestroyMK` — `Encrypt` on any secret and `Decrypt` on any structurally
valid envelope return the "failed to load master key" error (no panic), and
`AddSecret` leaves the vault directory untouched. -/
theorem c9_missing_master_key :
    (∀ a : Encryption.ArgonCrypt,
      Encryption.DestroyMK a = Encryption.NewArgonCrypt) ∧
    (∀ (A : Encryption.AEAD)
      (idK : Bytes → Bytes → Nat → Nat → Nat → Nat → Bytes)
      (salt nonce : Bytes) (s : Secret),
      Encryption.Encrypt A idK Encryption.NewArgonCrypt salt nonce s
        = .error .loadMasterKey) ∧
    (∀ (A : Encryption.AEAD)
      (idK : Bytes → Bytes → Nat → Nat → Nat → Nat → Bytes)
      (data s' n' c' : Bytes),
      Format.UnmarshalFile data = .ok (s', n', c') →
      Encryption.Decrypt A idK Encryption.NewArgonCrypt data
        = .error .loadMasterKey) ∧
    (∀ (A : Encryption.AEAD)
      (idK : Bytes → Bytes → Nat → Nat → Nat → Nat → Bytes)
      (f : Storage.SaveFaults) (σ : Storage.FS)
      (salt nonce name pw : Bytes) (now : Nat),
      Storage.fsGet σ (Storage.savePath name) = none →
      App.AddSecret A idK f σ Encryption.NewArgonCrypt salt nonce name pw now
        = (.error .loadMasterKey, σ)) := by
  refine ⟨fun a => rfl, fun A idK salt nonce s => rfl, ?_, ?_⟩
  · intro A idK data s' n' c' h
    simp only [Encryption.Decrypt, h]
    rfl
  · intro A idK f σ salt nonce name pw now h
    simp only [App.AddSecret, h, Option.isSome_none, Bool.false_eq_true,
      if_false]
    rfl

/-- Witness for C9 on explicit inputs. -/
theorem c9_missing_master_key_witness :
    Encryption.Encrypt Encryption.idealAEAD Encryption.idealIdKey
        Encryption.NewArgonCrypt (List.replicate 16 0) (List.replicate 12 0)
        ⟨[1], [2], 3⟩ = .error .loadMasterKey ∧
    Encryption.Decrypt Encryption.idealAEAD Encryption.idealIdKey
        Encryption.NewArgonCrypt
        (Format.envelope (List.replicate 16 0) (List.replicate 12 0) [9])
      = .error .loadMasterKey ∧
    App.AddSecret Encryption.idealAEAD Encryption.idealIdKey
        ⟨false, false, false, false, false, false, false, false, false, false⟩
        [] Encryption.NewArgonCrypt (List.replicate 16 0)
        (List.replicate 12 0) [97] [3] 5
      = (.error .loadMasterKey, []) :=
  ⟨c9_missing_master_key.2.1 _ _ _ _ _,
   c9_missing_master_key.2.2.1 Encryption.idealAEAD Encryption.idealIdKey
     (Format.envelope (List.replicate 16 0) (List.replicate 12 0) [9])
     (List.replicate 16 0) (List.replicate 12 0) [9] (by decide),
   c9_missing_master_key.2.2.2 _ _ _ _ _ _ _ _ _ (by decide)⟩
